import Mathlib

/-!
Verification of the store-monitoring report engine (TryAi repository).

The development shallowly embeds the Python sources into Lean:

* `app/services/compute_Algo.py` (class `MinuteIndexReportService`): the
  per-store uptime computation pipeline (`_proc_store`, `_load_polls`,
  `_build_bh`, `_spans`, `_sweep`, `_tzloc`, `_parse_time`, ...).
* `app/utils/url_resolver.py` (`UrlResolver.to_public`).
* `app/services/report_service.py` / `app/controllers/report_controller.py`
  (job-lifecycle trigger and status operations) together with
  `app/database/crud.py` (`ReportCRUD`) and the `/get_report` endpoint of
  `main.py`.

Modelling conventions:

* Python strings are modelled as `List Char` (`PyStr`); Python string
  methods (`replace`, `split`, `startswith`, `endswith`, `lower`,
  `strip`) are re-implemented on lists with Python semantics (non-empty
  patterns; `replace`/`split` act on non-overlapping occurrences scanned
  left to right).
* Instants (timezone-aware datetimes) are modelled as UTC seconds (`Int`)
  paired with the attached UTC-offset in seconds (`Aware`), mirroring the
  fixed offset a pytz-localized datetime carries.  Naive local datetimes
  are seconds since a local epoch that falls on a Monday at 00:00, so a
  day number is `fdiv 86400` and Python `date.weekday()` is `emod 7`.
* A pytz timezone is modelled by the two operations the code uses: a
  classification of naive wall times (unique / ambiguous / non-existent,
  each carrying the candidate UTC offsets, DST first) used by `localize`,
  and the offset attached by `astimezone` at a given instant.
* The SQL queries are modelled by their effect on a per-store list of raw
  rows: the `WHERE` filter is embedded; the `ORDER BY timestamp_utc`
  clause is left as the given row order (SQL leaves the order of equal
  timestamps unspecified, and the order of rows with distinct timestamps
  does not influence the per-minute deduplication, which keeps the
  maximal timestamp).
* Floats only ever hold integer minute counts in the pipeline, so they
  are embedded as `Int`; the hour-unit row fields divide by 60 in `ℚ`.
* The `while` loop of `_sweep` is embedded with explicit fuel; the fuel
  bound `|bh| + |spans|` is proved sufficient (claim C9).
-/

/-- Python strings, modelled as their list of characters. -/
abbrev PyStr := List Char

/-- Literal helper: the character list of a Lean string literal. -/
def pyOf (s : String) : PyStr := s.data

/-- Does `pat` occur as a contiguous substring? (scanning helper). -/
def occursB (pat : PyStr) : PyStr → Bool
  | [] => pat.isPrefixOf []
  | c :: rest => pat.isPrefixOf (c :: rest) || occursB pat rest

/-- Worker for Python `str.replace`: the `Nat` argument counts characters
still to be skipped because they belong to an occurrence that was already
replaced. -/
def replaceGo (old new : PyStr) : Nat → PyStr → PyStr
  | _ + 1, [] => []
  | n + 1, _ :: rest => replaceGo old new n rest
  | 0, [] => []
  | 0, c :: rest =>
    if old.isPrefixOf (c :: rest) then
      new ++ replaceGo old new (old.length - 1) rest
    else
      c :: replaceGo old new 0 rest

/-- Python `s.replace(old, new)` for a non-empty `old`: every
non-overlapping occurrence, scanned left to right, is substituted. -/
def pyReplace (old new s : PyStr) : PyStr := replaceGo old new 0 s

/-- Worker for Python `str.split`: `cur` is the current chunk reversed and
the `Nat` argument counts separator characters still to be skipped. -/
def splitGo (sep : PyStr) : PyStr → Nat → PyStr → List PyStr
  | cur, _ + 1, [] => [cur.reverse]
  | cur, n + 1, _ :: rest => splitGo sep cur n rest
  | cur, 0, [] => [cur.reverse]
  | cur, 0, c :: rest =>
    if sep.isPrefixOf (c :: rest) then
      cur.reverse :: splitGo sep [] (sep.length - 1) rest
    else
      splitGo sep (c :: cur) 0 rest

/-- Python `s.split(sep)` for a non-empty separator. -/
def pySplit (sep s : PyStr) : List PyStr := splitGo sep [] 0 s

/-- Python ASCII lower-casing of one character (`str.lower`, restricted to
the ASCII letters that appear in the corpus statuses). -/
def pyLowerChar (c : Char) : Char :=
  if 'A' ≤ c ∧ c ≤ 'Z' then Char.ofNat (c.toNat + 32) else c

/-- Python `s.lower()`. -/
def pyLower (s : PyStr) : PyStr := s.map pyLowerChar

/-- Python whitespace as stripped by `str.strip()`. -/
def pySpace (c : Char) : Bool :=
  c = ' ' || c = '\t' || c = '\n' || c = '\x0d' || c = '\x0b' || c = '\x0c'

/-- Python `s.strip()`. -/
def pyStrip (s : PyStr) : PyStr :=
  ((s.dropWhile pySpace).reverse.dropWhile pySpace).reverse

/-- Value of a non-empty all-digit character list. -/
def digitsVal : PyStr → Option Nat
  | [] => none
  | [c] => if c.isDigit then some (c.toNat - 48) else none
  | c :: rest =>
    if c.isDigit then
      match digitsVal rest with
      | some n => some ((c.toNat - 48) * 10 ^ rest.length + n)
      | none => none
    else none

/-- Python `int(s)` (restricted to an optional sign and decimal digits,
with surrounding whitespace stripped; the underscore digit separators
Python also accepts never occur in schedule data). -/
def pyInt (s : PyStr) : Option Int :=
  match pyStrip s with
  | [] => none
  | c :: rest =>
    if c = '-' then (digitsVal rest).map (fun n => -(n : Int))
    else if c = '+' then (digitsVal rest).map (fun n => (n : Int))
    else (digitsVal (c :: rest)).map (fun n => (n : Int))

/-- Python `datetime.time` value: hour, minute, second fields. -/
structure PyTime where
  h : Nat
  m : Nat
  s : Nat
  deriving DecidableEq, Repr

/-- Seconds since midnight; Python compares `time` values in this order. -/
def PyTime.toSecs (t : PyTime) : Int := t.h * 3600 + t.m * 60 + t.s

/-- Exactly two decimal digits. -/
def twoDigits : PyStr → Option Nat
  | [a, b] => if a.isDigit ∧ b.isDigit then some ((a.toNat - 48) * 10 + (b.toNat - 48)) else none
  | _ => none

/-- Modelled from the Python stdlib contract: `datetime.time.fromisoformat`,
restricted to the whole-second colon-separated forms HH, HH:MM and
HH:MM:SS with two-digit in-range fields (the only forms the schedule data
can produce after `_parse_time` appends a seconds field; fractional
seconds and UTC offsets are rejected by the model as they are never
stored). -/
def fromIsoformat (s : PyStr) : Option PyTime :=
  match pySplit (pyOf (":")) s with
  | [hh] =>
    match twoDigits hh with
    | some h => if h < 24 then some ⟨h, 0, 0⟩ else none
    | none => none
  | [hh, mm] =>
    match twoDigits hh, twoDigits mm with
    | some h, some m => if h < 24 ∧ m < 60 then some ⟨h, m, 0⟩ else none
    | _, _ => none
  | [hh, mm, ss] =>
    match twoDigits hh, twoDigits mm, twoDigits ss with
    | some h, some m, some sec => if h < 24 ∧ m < 60 ∧ sec < 60 then some ⟨h, m, sec⟩ else none
    | _, _, _ => none
  | _ => none

/-- First strategy of `_parse_time` (compute_Algo.py lines 280-283): pad a
two-component string with a ":00" seconds field, then ISO-parse; `none`
models the exception path. -/
def parse_time_strategy1 (s : PyStr) : Option PyTime :=
  let s1 := if (pySplit (pyOf (":")) s).length = 2 then s ++ pyOf (":00") else s
  fromIsoformat s1

/-- Second strategy of `_parse_time` (lines 285-290): split on colons and
convert fields with `int`; `none` models any of the exceptions (missing
minute field, non-numeric field, out-of-range `time` constructor call). -/
def parse_time_strategy2 (s : PyStr) : Option PyTime :=
  let p := pySplit (pyOf (":")) s
  match p.get? 0, p.get? 1 with
  | some p0, some p1 =>
    match pyInt p0, pyInt p1 with
    | some h, some m =>
      match (if 2 < p.length then pyInt ((p.get? 2).getD []) else some 0) with
      | some sec =>
        if 0 ≤ h ∧ h < 24 ∧ 0 ≤ m ∧ m < 60 ∧ 0 ≤ sec ∧ sec < 60 then
          some ⟨h.toNat, m.toNat, sec.toNat⟩
        else none
      | none => none
    | _, _ => none
  | _, _ => none

/-- Embeds `MinuteIndexReportService._parse_time` (compute_Algo.py lines
279-292): try the ISO strategy, then the manual split strategy, and fall
back to `time(0, 0, 0)` when both raise. -/
def parse_time (s : PyStr) : PyTime :=
  match parse_time_strategy1 s with
  | some t => t
  | none =>
    match parse_time_strategy2 s with
    | some t => t
    | none => ⟨0, 0, 0⟩

/-- Result of localizing one naive wall time in a timezone: the offsets a
pytz tzinfo can attach (DST candidate listed first, standard second). -/
inductive LocalKind where
  | unique (off : Int)
  | ambiguous (offDst offStd : Int)
  | absent (offDst offStd : Int)
  deriving DecidableEq, Repr

/-- A pytz timezone, by the two operations the code uses: `classify` drives
`localize` on naive wall seconds, `offAt` is the UTC offset `astimezone`
attaches at a UTC instant. -/
structure Tz where
  classify : Int → LocalKind
  offAt : Int → Int

/-- An aware datetime: UTC instant in seconds plus the attached UTC offset
in seconds. -/
abbrev Aware := Int × Int

/-- The pytz `tz.localize(dt, is_dst=True)` call: never raises, resolving
both ambiguous and non-existent wall times with the DST-side offset. -/
def locTrue (tz : Tz) (w : Int) : Aware :=
  match tz.classify w with
  | .unique o => (w - o, o)
  | .ambiguous od _ => (w - od, od)
  | .absent od _ => (w - od, od)

/-- Embeds `MinuteIndexReportService._tzloc` (compute_Algo.py lines
165-171): `localize(dt, is_dst=None)` raising on ambiguous or non-existent
wall times, retried with `is_dst=True` (ambiguous) or on the wall time
shifted forward one hour (non-existent). -/
def tzloc (tz : Tz) (w : Int) : Aware :=
  match tz.classify w with
  | .unique o => (w - o, o)
  | .ambiguous od _ => (w - od, od)
  | .absent _ _ => locTrue tz (w + 3600)

/-- Python `t.astimezone(tz)`: same instant, offset of the target zone. -/
def astz (tz : Tz) (t : Int) : Aware := (t, tz.offAt t)

/-- Wall-clock seconds of an aware datetime (its naive fields). -/
def wallOf (a : Aware) : Int := a.1 + a.2

/-- Embeds `_floor_min` (lines 145-146): zero the wall-clock seconds field,
keeping the attached offset. -/
def floor_min (a : Aware) : Aware := (a.1 - (wallOf a).emod 60, a.2)

/-- Embeds `_ceil_min` (lines 148-151): identity on minute-aligned values,
otherwise add one minute and floor. -/
def ceil_min (a : Aware) : Aware :=
  if (wallOf a).emod 60 = 0 then a
  else (a.1 + 60 - (wallOf a + 60).emod 60, a.2)

/-- Python `int(d / 60.0)` for an integer number of seconds `d`: truncation
toward zero. -/
def truncDiv60 (d : Int) : Int :=
  if 0 ≤ d then (d.toNat / 60 : Nat) else -(((-d).toNat / 60 : Nat) : Int)

/-- Embeds `_idx` (lines 153-155): minute index of a local instant relative
to the pinned local now (both minute-floored by their callers). -/
def idx (dtLocal nowLocal : Aware) : Int :=
  max 1 (truncDiv60 (nowLocal.1 - dtLocal.1) + 1)

/-- Embeds `_overlap` (lines 157-160) on half-open integer intervals. -/
def overlap (a b : Int × Int) : Int :=
  max 0 (min a.2 b.2 - max a.1 b.1)

/-- Embeds `_clamp` (lines 162-163). -/
def clamp (v lo hi : Int) : Int := max lo (min hi v)

/-- The normalized "active" status string. -/
def actS : PyStr := pyOf ("active")

/-- The normalized "inactive" status string. -/
def inactS : PyStr := pyOf ("inactive")

/-- Embeds `_map_status` (lines 212-218): case-fold, strip, and keep only
the two known statuses. -/
def map_status (s : PyStr) : Option PyStr :=
  let v := pyStrip (pyLower s)
  if v = actS then some actS
  else if v = inactS then some inactS
  else none

/-- Entry list standing for the Python dict `per_min` of `_load_polls`:
keys are minute indices, values the kept (utc seconds, status) pair;
updates keep the key position, inserts append (Python dict order). -/
abbrev PollDict := List (Int × Int × PyStr)

/-- Python dict lookup on the `per_min` model. -/
def dictFind (d : PollDict) (k : Int) : Option (Int × PyStr) :=
  match d with
  | [] => none
  | (k0, v0) :: rest => if k0 = k then some v0 else dictFind rest k

/-- Python dict store on the `per_min` model. -/
def dictStore (d : PollDict) (k : Int) (v : Int × PyStr) : PollDict :=
  match d with
  | [] => [(k, v)]
  | (k0, v0) :: rest => if k0 = k then (k, v) :: rest else (k0, v0) :: dictStore rest k v

/-- Minute index assigned to a raw sample with UTC seconds `t` by
`_load_polls`: localize, floor to the minute, index against now. -/
def pollIdx (tz : Tz) (nowLocal : Aware) (t : Int) : Int :=
  idx (floor_min (astz tz t)) nowLocal

/-- One iteration of the `_load_polls` deduplication loop (lines 187-206):
drop unknown statuses, then keep the sample with the greatest original UTC
timestamp per minute index. -/
def pollStep (tz : Tz) (nowLocal : Aware) (d : PollDict) (row : Int × PyStr) : PollDict :=
  let k := pollIdx tz nowLocal row.1
  match map_status row.2 with
  | none => d
  | some m =>
    match dictFind d k with
    | none => dictStore d k (row.1, m)
    | some (t0, _) => if t0 < row.1 then dictStore d k (row.1, m) else d

/-- Embeds the fetch-and-deduplicate loop of `_load_polls` (lines
173-206): the SQL `WHERE` keeps samples with `ts_utc` at or after
`now_local - (10080 + 1440)` minutes, and the loop fills the `per_min`
dict keeping, per minute index, the sample with the latest UTC
timestamp. -/
def per_min_dict (rows : List (Int × PyStr)) (tz : Tz) (nowLocal : Aware) : PollDict :=
  (rows.filter (fun r => nowLocal.1 - (10080 + 1440) * 60 ≤ r.1)).foldl (pollStep tz nowLocal) []

/-- Embeds the tail of `_load_polls` (lines 207-210): list the kept
(minute index, status) pairs and sort them by descending minute index
(the dict keys are pairwise distinct, so the descending order is
unique). -/
def load_polls (rows : List (Int × PyStr)) (tz : Tz) (nowLocal : Aware) : List (Int × PyStr) :=
  List.insertionSort (fun a b => b.1 ≤ a.1)
    ((per_min_dict rows tz nowLocal).map (fun e => (e.1, e.2.2)))

/-- Lexicographic order used by Python `list.sort()` on the interval pairs
of `_build_bh` and `_merge`. -/
def pairLexLe (a b : Int × Int) : Prop :=
  a.1 < b.1 ∨ (a.1 = b.1 ∧ a.2 ≤ b.2)

instance : DecidableRel pairLexLe := fun a b => by
  unfold pairLexLe
  exact inferInstance

/-- Worker of `_merge` (lines 294-305): extend the accumulated last
interval when the next one starts at or before its end. -/
def mergeGo (cur : Int × Int) : List (Int × Int) → List (Int × Int)
  | [] => [cur]
  | (s, e) :: rest =>
    if s ≤ cur.2 then mergeGo (cur.1, max cur.2 e) rest
    else cur :: mergeGo (s, e) rest

/-- Embeds `_merge` (lines 294-305): sort, then merge overlapping or
touching half-open intervals. -/
def mergeIvals (ivals : List (Int × Int)) : List (Int × Int) :=
  match List.insertionSort pairLexLe ivals with
  | [] => []
  | x :: rest => mergeGo x rest

/-- Localize the naive combination of a local day number and a time of day
(`datetime.combine` followed by `_tzloc`). -/
def combineLoc (tz : Tz) (day : Int) (t : PyTime) : Aware :=
  tzloc tz (day * 86400 + t.toSecs)

/-- Segments contributed by one schedule entry on one local date, lines
249-273 of `_build_bh`: the overnight branch splits at local midnight via
the 23:59:59 end-of-day and next-day start-of-day instants. -/
def bhEntrySegs (tz : Tz) (nowLocal : Aware) (day : Int) (e : PyStr × PyStr) : List (Int × Int) :=
  let sT := parse_time e.1
  let eT := parse_time e.2
  let sDt := combineLoc tz day sT
  if eT.toSecs ≤ sT.toSecs then
    let eod := combineLoc tz day ⟨23, 59, 59⟩
    let a := idx (floor_min sDt) nowLocal
    let b := idx (ceil_min eod) nowLocal
    let first := if b < a then [(b, a)] else []
    let sod := combineLoc tz (day + 1) ⟨0, 0, 0⟩
    let e2 := combineLoc tz (day + 1) eT
    let a2 := idx (floor_min sod) nowLocal
    let b2 := idx (ceil_min e2) nowLocal
    first ++ (if b2 < a2 then [(b2, a2)] else [])
  else
    let eDt := combineLoc tz day eT
    let a := idx (floor_min sDt) nowLocal
    let b := idx (ceil_min eDt) nowLocal
    if b < a then [(b, a)] else []

/-- Embeds `_build_bh` (lines 220-277): an empty schedule yields the full
24x7 week interval; otherwise walk the local dates from 8 days before to
1 day after now, emit the segments of the matching weekday entries, sort
and merge.  (The `midnight` variable of the source loop is computed but
never used, so it has no counterpart here.) -/
def build_bh (schedRows : List (Int × PyStr × PyStr)) (tz : Tz) (nowLocal : Aware) :
    List (Int × Int) :=
  if schedRows = [] then [(1, 10081)]
  else
    let nw := wallOf nowLocal
    let startDay := (nw - 8 * 86400).fdiv 86400
    let endDay := (nw + 86400).fdiv 86400
    let days := (List.range ((endDay - startDay).toNat + 1)).map (fun i => startDay + (i : Int))
    let ans := days.foldl
      (fun acc day =>
        let wd := day.emod 7
        let entries := (schedRows.filter (fun r => r.1 = wd)).map (fun r => r.2)
        acc ++ (entries.map (bhEntrySegs tz nowLocal day)).flatten)
      []
    mergeIvals (List.insertionSort pairLexLe ans)

/-- Python `min(l, key=lambda x: x[0])`: first element with minimal key. -/
def minByK (l : List (Int × PyStr)) : Option (Int × PyStr) :=
  l.foldl
    (fun acc x =>
      match acc with
      | none => some x
      | some m => if x.1 < m.1 then some x else some m)
    none

/-- The walk of `_spans` (lines 322-332) over the in-window polls sorted by
descending minute index, starting from the window edge `pk` with seed
status `ps`; the final pattern also emits the tail span down to `w0`. -/
def spanWalk (w0 : Int) : Int → PyStr → List (Int × PyStr) → List (Int × Int × PyStr)
  | pk, ps, [] =>
    if min w0 pk < max w0 pk then [(min w0 pk, max w0 pk, ps)] else []
  | pk, ps, (k, s) :: rest =>
    (if min k pk < max k pk then [(min k pk, max k pk, ps)] else []) ++ spanWalk w0 k s rest

/-- Lexicographic order used by Python `sorted(segs)` in `_spans`; the
status component never decides because the generated segments have
pairwise distinct start points. -/
def segLexLe (a b : Int × Int × PyStr) : Prop :=
  a.1 < b.1 ∨ (a.1 = b.1 ∧ a.2.1 ≤ b.2.1)

instance : DecidableRel segLexLe := fun a b => by
  unfold segLexLe
  exact inferInstance

/-- The adjacent-merge loop of `_spans` (lines 333-338): fuse a following
span that starts where the current one ends and carries the same status. -/
def mergeAdjGo (cur : Int × Int × PyStr) : List (Int × Int × PyStr) → List (Int × Int × PyStr)
  | [] => [cur]
  | (s1, e1, st) :: rest =>
    if cur.2.2 = st ∧ cur.2.1 = s1 then mergeAdjGo (cur.1, e1, st) rest
    else cur :: mergeAdjGo (s1, e1, st) rest

/-- Seed-status selection of `_spans` (lines 310-318): the first minimal-k
poll at or beyond `start_k = W.2 - 1`, else the first minimal-k in-window
poll, else "inactive". -/
def spans_seed (polls : List (Int × PyStr)) (W : Int × Int) : PyStr :=
  match minByK (polls.filter (fun p => W.2 - 1 ≤ p.1)) with
  | some m => m.2
  | none =>
    match minByK (polls.filter (fun p => W.1 ≤ p.1 ∧ p.1 < W.2)) with
    | some m => m.2
    | none => inactS

/-- Embeds `_spans` (lines 307-339): seed selection from the pre-window
polls (minute index at least `start_k = 10080`), else from the earliest
in-window poll, else "inactive"; carry-forward walk over the in-window
polls in descending index order starting from `start_k`; sort and merge
adjacent equal-status spans. -/
def spans (polls : List (Int × PyStr)) (W : Int × Int) : List (Int × Int × PyStr) :=
  if polls = [] then [(W.1, W.2, inactS)]
  else
    let seed := spans_seed polls W
    let win := polls.filter (fun p => W.1 ≤ p.1 ∧ p.1 < W.2)
    if win = [] then [(W.1, W.2, seed)]
    else
      let sortedWin := List.insertionSort (fun a b => b.1 ≤ a.1) win
      match List.insertionSort segLexLe (spanWalk W.1 (W.2 - 1) seed sortedWin) with
      | [] => []
      | x :: rest => mergeAdjGo x rest

/-- Fueled body of the `while` loop of `_sweep` (lines 341-369): `none`
when the fuel runs out with the loop guard still true, otherwise the three
band accumulators. -/
def sweepAux (bh : List (Int × Int)) (sp : List (Int × Int × PyStr))
    (H D W : Int × Int) :
    Nat → Nat → Nat → Int × Int × Int → Option (Int × Int × Int)
  | fuel, i, j, acc =>
    match bh.get? i, sp.get? j with
    | some (bs, be), some (ss, se, st) =>
      match fuel with
      | 0 => none
      | fuel + 1 =>
        let s := max bs ss
        let e := min be se
        let acc1 :=
          if s < e ∧ st = actS then
            (acc.1 + overlap (s, e) H, acc.2.1 + overlap (s, e) D, acc.2.2 + overlap (s, e) W)
          else acc
        let i1 := if be ≤ se then i + 1 else i
        let j1 := if se ≤ be then j + 1 else j
        sweepAux bh sp H D W fuel i1 j1 acc1
    | _, _ => some acc

/-- Embeds `_sweep` (lines 341-369) with the fuel `|bh| + |spans|`; the
fuel is proved sufficient below (claim C9), so the default is never
taken. -/
def sweep (bh : List (Int × Int)) (sp : List (Int × Int × PyStr))
    (H D W : Int × Int) : Int × Int × Int :=
  (sweepAux bh sp H D W (bh.length + sp.length) 0 0 (0, 0, 0)).getD (0, 0, 0)

/-- Budget of a band against a business-hours interval list, as computed in
`_proc_store` lines 107-109. -/
def bhBudget (bh : List (Int × Int)) (band : Int × Int) : Int :=
  (bh.map (fun b => overlap b band)).sum

/-- One result row of the report, with the fields of the dict built by
`_proc_store` lines 126-143 (hour-band values in minutes, day and week
values in hours; `algorithm_details` carried as the budget, raw-uptime and
count fields). -/
structure Row where
  storeId : PyStr
  uptimeLastHour : Int
  uptimeLastDay : ℚ
  uptimeLastWeek : ℚ
  downtimeLastHour : Int
  downtimeLastDay : ℚ
  downtimeLastWeek : ℚ
  totalPolls : Nat
  bhCount : Nat
  spansCount : Nat
  budgetH : Int
  budgetD : Int
  budgetW : Int
  rawUH : Int
  rawUD : Int
  rawUW : Int
  deriving DecidableEq, Repr

/-- Embeds `_proc_store` (lines 88-143) for a resolved timezone: pin the
local now, load and normalize the polls (returning no row when none
remain), build the business-hours intervals and the status spans, sweep,
clamp, and emit the row; the three `assert` statements of lines 122-124
are embedded as a guard (they are proved to always pass).  The float
division by 60.0 of lines 129-133 is exact on these integer minute counts
and is embedded as the rational `mkRat _ 60`. -/
def proc_store (sid : PyStr) (storeRows : List (Int × PyStr))
    (schedRows : List (Int × PyStr × PyStr)) (tz : Tz) (maxUtc : Int) : Option Row :=
  let nowLocal := floor_min (astz tz maxUtc)
  let H : Int × Int := (1, 61)
  let D : Int × Int := (1, 1441)
  let W : Int × Int := (1, 10081)
  let polls := load_polls storeRows tz nowLocal
  if polls = [] then none
  else
    let bh := build_bh schedRows tz nowLocal
    let B_H := bhBudget bh H
    let B_D := bhBudget bh D
    let B_W := bhBudget bh W
    let sps := spans polls W
    let u := sweep bh sps H D W
    let U_H := clamp u.1 0 B_H
    let U_D := clamp u.2.1 0 B_D
    let U_W := clamp u.2.2 0 B_W
    let D_H := B_H - U_H
    let D_D := B_D - U_D
    let D_W := B_W - U_W
    if U_H + D_H = B_H ∧ U_D + D_D = B_D ∧ U_W + D_W = B_W then
      some
        { storeId := sid
          uptimeLastHour := U_H
          uptimeLastDay := mkRat U_D 60
          uptimeLastWeek := mkRat U_W 60
          downtimeLastHour := D_H
          downtimeLastDay := mkRat D_D 60
          downtimeLastWeek := mkRat D_W 60
          totalPolls := polls.length
          bhCount := bh.length
          spansCount := sps.length
          budgetH := B_H
          budgetD := B_D
          budgetW := B_W
          rawUH := U_H
          rawUD := U_D
          rawUW := U_W }
    else none

/-- Embeds `UrlResolver.to_public` (app/utils/url_resolver.py lines 13-40):
empty references and references without the `file://` scheme pass through;
file references are reduced to their final path component, a `.json`
filename is rewritten to `.csv`, and the result is served under
`/files/reports/`. -/
def to_public (internalUrl : PyStr) : PyStr :=
  if internalUrl = [] then internalUrl
  else if (pyOf ("file://")).isPrefixOf internalUrl then
    let filePath := pyReplace (pyOf ("file://")) [] internalUrl
    let filename0 := (pySplit (pyOf ("/")) filePath).getLastD []
    let filename :=
      if (pyOf (".json")).isSuffixOf filename0 then
        pyReplace (pyOf (".json")) (pyOf (".csv")) filename0
      else filename0
    pyOf ("/files/reports/") ++ filename
  else internalUrl

/-- A persisted job record of the `reports` table (app/models/report.py):
report id, status string, optional artifact url, creation order stamp. -/
structure ReportRec where
  report_id : PyStr
  status : PyStr
  url : Option PyStr
  created_at : Nat
  deriving DecidableEq, Repr

/-- Embeds `ReportCRUD.get_latest_pending_report` (crud.py lines 45-54):
the most recently created record whose status is PENDING or RUNNING
(ties on `created_at` are returned in a fixed order, as the SQL leaves
them unspecified). -/
def get_latest_pending_report (db : List ReportRec) : Option ReportRec :=
  (List.insertionSort (fun a b : ReportRec => b.created_at ≤ a.created_at)
    (db.filter (fun r => r.status = pyOf ("PENDING") || r.status = pyOf ("RUNNING")))).head?

/-- Outcome of the service-level report creation, abstracting the result
dict of `ReportService.create_new_report`. -/
structure CreateResult where
  success : Bool
  error_code : Option PyStr
  new_report_id : Option PyStr
  existing_id : Option PyStr
  message : PyStr
  deriving DecidableEq, Repr

/-- The blocked-creation message built by `can_create_new_report`
(report_service.py line 58). -/
def blockedMessage (r : ReportRec) : PyStr :=
  pyOf ("Cannot create new report. Existing report ") ++ r.report_id ++
    pyOf (" is still ") ++ r.status ++ pyOf (".")

/-- Embeds `ReportService.create_new_report` (report_service.py lines
77-121) over the job table: when `can_create_new_report` observes an
active (PENDING or RUNNING) record the call returns the CREATION_BLOCKED
failure carrying that record, leaving the table unchanged; otherwise the
new PENDING record is appended (`ReportCRUD.create_report`).  The returned
list of enqueued work items is always empty: this code path performs no
queue operation (the RCS controller instead flips the fresh record to
RUNNING, "simulating" the enqueue). -/
def create_new_report (db : List ReportRec) (newId : PyStr) (now : Nat) :
    List ReportRec × List PyStr × CreateResult :=
  match get_latest_pending_report db with
  | some r =>
    (db, [],
      { success := false
        error_code := some (pyOf ("CREATION_BLOCKED"))
        new_report_id := none
        existing_id := some r.report_id
        message := blockedMessage r })
  | none =>
    (db ++ [{ report_id := newId, status := pyOf ("PENDING"), url := none, created_at := now }],
      [],
      { success := true
        error_code := none
        new_report_id := some newId
        existing_id := none
        message := pyOf ("Report created") })

/-- Embeds the status translation of
`ReportService.get_report_with_url_logic` (report_service.py lines
345-369) for one stored record: the returned pair is the display status
and the exposed url.  The url translation is the inline rewrite of lines
357-369 (strip `file://`, split on "reports/", rewrite `.json` to `.csv`,
serve under `/files/reports/`); a missing or falsy stored url passes
through. -/
def get_report_with_url_logic (r : ReportRec) : PyStr × Option PyStr :=
  if r.status = pyOf ("PENDING") || r.status = pyOf ("RUNNING") then
    (pyOf ("RUNNING"), none)
  else if r.status = pyOf ("FAILED") then
    (pyOf ("FAILED"), none)
  else if r.status = pyOf ("COMPLETE") then
    let exposed :=
      match r.url with
      | none => none
      | some u =>
        if u ≠ [] ∧ (pyOf ("file://")).isPrefixOf u then
          let filePath := pyReplace (pyOf ("file://")) [] u
          if occursB (pyOf ("reports/")) filePath then
            let filename0 := (pySplit (pyOf ("reports/")) filePath).getLastD []
            let filename :=
              if (pyOf (".json")).isSuffixOf filename0 then
                pyReplace (pyOf (".json")) (pyOf (".csv")) filename0
              else filename0
            some (pyOf ("/files/reports/") ++ filename)
          else some u
        else some u
    (pyOf ("COMPLETED"), exposed)
  else
    (r.status, none)

/-- Embeds the response mapping of the `/get_report` endpoint of `main.py`
(lines 176-185): the response model carries only a status and the echoed
report id, never a url. -/
def main_get_report_status (status : PyStr) : PyStr :=
  if status = pyOf ("PENDING") || status = pyOf ("RUNNING") then pyOf ("Running")
  else if status = pyOf ("FAILED") then pyOf ("Failed")
  else if status = pyOf ("COMPLETE") then pyOf ("Complete")
  else status

/-- The UTC timezone: every wall time is unique with offset zero. -/
def tzUTC : Tz := ⟨fun _ => .unique 0, fun _ => 0⟩

/-- A toy zone with one fall-back transition: wall seconds in the hour
starting at 3600 are ambiguous between the DST offset -18000 and the
standard offset -21600 (the shape of America/Chicago in November). -/
def tzFallback : Tz :=
  ⟨fun w => if 3600 ≤ w ∧ w < 7200 then .ambiguous (-18000) (-21600) else .unique (-21600),
   fun _ => -21600⟩

/-- A toy zone with one spring-forward transition: wall seconds in the
hour starting at 7200 do not exist (offsets -18000 DST, -21600 standard,
the shape of America/Chicago in March). -/
def tzSpring : Tz :=
  ⟨fun w => if 7200 ≤ w ∧ w < 10800 then .absent (-18000) (-21600) else .unique (-18000),
   fun _ => -18000⟩

/-- Decides that a span list is an ascending gap-free tiling of the
half-open index interval from `lo` to `hi`. -/
def tilesAsc : List (Int × Int × PyStr) → Int → Int → Bool
  | [], lo, hi => lo = hi
  | (a, b, _) :: rest, lo, hi => a = lo && a < b && tilesAsc rest b hi

/-- Decides that a span list is a descending adjacent chain from `hi` down
to `lo` (the order in which the carry-forward walk emits spans). -/
def tilesDesc : List (Int × Int × PyStr) → Int → Int → Bool
  | [], lo, hi => lo = hi
  | (a, b, _) :: rest, lo, hi => b = hi && a < b && tilesDesc rest lo a

instance descKTotal : IsTotal (Int × PyStr) (fun a b => b.1 ≤ a.1) :=
  ⟨fun a b => le_total b.1 a.1⟩

instance descKTrans : IsTrans (Int × PyStr) (fun a b => b.1 ≤ a.1) :=
  ⟨fun _ _ _ hab hbc => le_trans hbc hab⟩

theorem overlap_nonneg (a b : Int × Int) : 0 ≤ overlap a b := le_max_left 0 _

theorem bhBudget_nonneg (bh : List (Int × Int)) (band : Int × Int) : 0 ≤ bhBudget bh band := by
  refine List.sum_nonneg ?_
  intro x hx
  obtain ⟨b, -, rfl⟩ := List.mem_map.1 hx
  exact overlap_nonneg b band

theorem clamp_nonneg (v hi : Int) : 0 ≤ clamp v 0 hi := le_max_left 0 _

theorem clamp_le (v hi : Int) (h : 0 ≤ hi) : clamp v 0 hi ≤ hi :=
  max_le h (min_le_left hi v)

theorem sweepAux_isSome (bh : List (Int × Int)) (sp : List (Int × Int × PyStr))
    (H D W : Int × Int) :
    ∀ (fuel i j : Nat) (acc : Int × Int × Int),
      (bh.length - i) + (sp.length - j) ≤ fuel →
      (sweepAux bh sp H D W fuel i j acc).isSome = true := by
  intro fuel
  induction fuel with
  | zero =>
    intro i j acc hm
    have hi : bh.length ≤ i := by omega
    have hj : sp.length ≤ j := by omega
    rw [sweepAux]
    rw [List.get?_eq_none.2 hi, List.get?_eq_none.2 hj]
    rfl
  | succ fuel ih =>
    intro i j acc hm
    rw [sweepAux]
    cases hb : bh.get? i with
    | none => cases hs : sp.get? j <;> rfl
    | some b =>
      cases hs : sp.get? j with
      | none =>
        obtain ⟨bs, be⟩ := b
        rfl
      | some s =>
        obtain ⟨bs, be⟩ := b
        obtain ⟨ss, se, st⟩ := s
        have hib : i < bh.length := by
          by_contra hc
          rw [List.get?_eq_none.2 (by omega)] at hb
          cases hb
        have hjs : j < sp.length := by
          by_contra hc
          rw [List.get?_eq_none.2 (by omega)] at hs
          cases hs
        simp only
        split_ifs with h1 h2 h2 <;> apply ih <;> omega

/-- Claim C9: the two-pointer sweep terminates, every iteration advancing
at least one of the two pointers (`be ≤ se` or `se ≤ be` always holds), so
the loop guard fails within at most the sum of the two list lengths many
iterations: running `sweepAux` with exactly that much fuel never exhausts
it. -/
theorem C9_sweep_terminates (bh : List (Int × Int)) (sp : List (Int × Int × PyStr))
    (H D W : Int × Int) :
    (sweepAux bh sp H D W (bh.length + sp.length) 0 0 (0, 0, 0)).isSome = true :=
  sweepAux_isSome bh sp H D W _ 0 0 _ (by omega)

theorem sixty_mkRat (x : Int) : (60 : ℚ) * mkRat x 60 = (x : ℚ) := by
  rw [Rat.mkRat_eq_div]
  push_cast
  field_simp

/-- Claim C1: for every store that yields a result row and every band, the
clamped uptime lies in the band budget range, the emitted downtime is the
budget minus the uptime, and their sum is exactly the budget in integer
minutes before the hour conversion (which the day and week fields carry as
the exact rational division by 60). -/
theorem C1_coverage_identity (sid : PyStr) (rows : List (Int × PyStr))
    (sched : List (Int × PyStr × PyStr)) (tz : Tz) (maxUtc : Int) (r : Row)
    (h : proc_store sid rows sched tz maxUtc = some r) :
    (r.uptimeLastHour + r.downtimeLastHour = r.budgetH ∧
      0 ≤ r.uptimeLastHour ∧ r.uptimeLastHour ≤ r.budgetH ∧ r.rawUH = r.uptimeLastHour) ∧
    (r.rawUD + (r.budgetD - r.rawUD) = r.budgetD ∧ 0 ≤ r.rawUD ∧ r.rawUD ≤ r.budgetD ∧
      (60 : ℚ) * r.uptimeLastDay = (r.rawUD : ℚ) ∧
      (60 : ℚ) * r.uptimeLastDay + 60 * r.downtimeLastDay = (r.budgetD : ℚ)) ∧
    (r.rawUW + (r.budgetW - r.rawUW) = r.budgetW ∧ 0 ≤ r.rawUW ∧ r.rawUW ≤ r.budgetW ∧
      (60 : ℚ) * r.uptimeLastWeek = (r.rawUW : ℚ) ∧
      (60 : ℚ) * r.uptimeLastWeek + 60 * r.downtimeLastWeek = (r.budgetW : ℚ)) := by
  simp only [proc_store] at h
  split at h
  · cases h
  · split at h
    · obtain rfl := (Option.some.inj h).symm
      refine ⟨⟨by ring, clamp_nonneg _ _, clamp_le _ _ (bhBudget_nonneg _ _), rfl⟩,
        ⟨by ring, clamp_nonneg _ _, clamp_le _ _ (bhBudget_nonneg _ _), sixty_mkRat _, ?_⟩,
        ⟨by ring, clamp_nonneg _ _, clamp_le _ _ (bhBudget_nonneg _ _), sixty_mkRat _, ?_⟩⟩
      · rw [sixty_mkRat, sixty_mkRat]
        push_cast
        ring
      · rw [sixty_mkRat, sixty_mkRat]
        push_cast
        ring
    · cases h

theorem C1_coverage_identity_witness :
    proc_store (pyOf ("s1")) [((-600 : Int), pyOf ("active"))] [] tzUTC 0 =
      some (⟨pyOf ("s1"), 60, mkRat 1440 60, mkRat 10079 60, 0, 0, mkRat 1 60,
        1, 1, 1, 60, 1440, 10080, 60, 1440, 10079⟩ : Row) ∧
    (((60 : Int) + 0 = 60 ∧ (0 : Int) ≤ (60 : Int) ∧ (60 : Int) ≤ (60 : Int) ∧ (60 : Int) = 60) ∧
      ((1440 : Int) + (1440 - 1440) = 1440 ∧ (0 : Int) ≤ (1440 : Int) ∧ (1440 : Int) ≤ (1440 : Int) ∧
        (60 : ℚ) * mkRat 1440 60 = ((1440 : Int) : ℚ) ∧
        (60 : ℚ) * mkRat 1440 60 + 60 * mkRat 0 60 = ((1440 : Int) : ℚ)) ∧
      ((10079 : Int) + (10080 - 10079) = 10080 ∧ (0 : Int) ≤ (10079 : Int) ∧
        (10079 : Int) ≤ (10080 : Int) ∧
        (60 : ℚ) * mkRat 10079 60 = ((10079 : Int) : ℚ) ∧
        (60 : ℚ) * mkRat 10079 60 + 60 * mkRat 1 60 = ((10080 : Int) : ℚ))) :=
  ⟨by decide,
    C1_coverage_identity (pyOf ("s1")) [((-600 : Int), pyOf ("active"))] [] tzUTC 0
      (⟨pyOf ("s1"), 60, mkRat 1440 60, mkRat 10079 60, 0, 0, mkRat 1 60,
        1, 1, 1, 60, 1440, 10080, 60, 1440, 10079⟩ : Row) (by decide)⟩

/-- Claim C2 (amended): a store is excluded exactly when its normalized
poll list is empty, that is, when no known-status sample lies in the
fetched range that also spans the 1440-minute pre-window buffer; a store
whose only samples sit in the buffer (minute index 10081 or beyond) still
produces a row. -/
theorem C2_exclusion_iff_no_polls (sid : PyStr) (rows : List (Int × PyStr))
    (sched : List (Int × PyStr × PyStr)) (tz : Tz) (maxUtc : Int) :
    proc_store sid rows sched tz maxUtc = none ↔
      load_polls rows tz (floor_min (astz tz maxUtc)) = [] := by
  simp only [proc_store]
  split
  case isTrue h => simp [h]
  case isFalse h =>
    rw [if_pos ⟨by ring, by ring, by ring⟩]
    simp [h]

theorem C2_exclusion_counterexample :
    load_polls [((-605940 : Int), pyOf ("active"))] tzUTC (floor_min (astz tzUTC 0)) =
      [(10100, actS)] ∧
    ¬ ((1 : Int) ≤ 10100 ∧ (10100 : Int) < 10081) ∧
    (proc_store (pyOf ("s2")) [((-605940 : Int), pyOf ("active"))] [] tzUTC 0).isSome = true :=
  ⟨by decide, by decide, by decide⟩

/-- Claim C6 (amended): the localization primitive is a deterministic
function of the timezone and the wall time; on ambiguous (fall-back) wall
times it selects the DST-side offset, which is the earlier of the two
candidate instants whenever the DST offset exceeds the standard offset;
on non-existent (spring-forward) wall times it localizes the wall time
shifted forward by one hour with the DST-side policy. -/
theorem C6_tzloc_policy (tz : Tz) (w od os : Int) :
    (tz.classify w = LocalKind.ambiguous od os →
      tzloc tz w = (w - od, od) ∧ (os < od → (tzloc tz w).1 = min (w - od) (w - os))) ∧
    (tz.classify w = LocalKind.absent od os → tzloc tz w = locTrue tz (w + 3600)) := by
  constructor
  · intro h
    have h1 : tzloc tz w = (w - od, od) := by rw [tzloc, h]
    refine ⟨h1, fun hlt => ?_⟩
    rw [h1]
    have hle : w - od ≤ w - os := by omega
    simp [min_eq_left hle]
  · intro h
    rw [tzloc, h]

theorem C6_tzloc_counterexample :
    tzFallback.classify 3600 = LocalKind.ambiguous (-18000) (-21600) ∧
    tzloc tzFallback 3600 = (21600, -18000) ∧
    (tzloc tzFallback 3600).1 ≠ max (3600 - (-18000)) (3600 - (-21600)) :=
  ⟨by decide, by decide, by decide⟩

theorem C6_tzloc_policy_witness :
    tzloc tzFallback 3600 = (3600 - (-18000), -18000) ∧
    (tzloc tzFallback 3600).1 = min (3600 - (-18000)) (3600 - (-21600)) ∧
    tzloc tzSpring 7200 = locTrue tzSpring (7200 + 3600) :=
  ⟨((C6_tzloc_policy tzFallback 3600 (-18000) (-21600)).1 (by decide)).1,
    ((C6_tzloc_policy tzFallback 3600 (-18000) (-21600)).1 (by decide)).2 (by decide),
    (C6_tzloc_policy tzSpring 7200 (-18000) (-21600)).2 (by decide)⟩

theorem fromIsoformat_bounds (s : PyStr) (t : PyTime) (h : fromIsoformat s = some t) :
    t.h < 24 ∧ t.m < 60 ∧ t.s < 60 := by
  unfold fromIsoformat at h
  split at h
  · split at h
    · split_ifs at h with hlt
      obtain rfl := Option.some.inj h
      exact ⟨hlt, (by decide : (0 : Nat) < 60), (by decide : (0 : Nat) < 60)⟩
    · cases h
  · split at h
    · split_ifs at h with hlt
      obtain rfl := Option.some.inj h
      exact ⟨hlt.1, hlt.2, (by decide : (0 : Nat) < 60)⟩
    · cases h
  · split at h
    · split_ifs at h with hlt
      obtain rfl := Option.some.inj h
      exact ⟨hlt.1, hlt.2.1, hlt.2.2⟩
    · cases h
  · cases h

theorem parse_time_strategy2_bounds (s : PyStr) (t : PyTime)
    (h : parse_time_strategy2 s = some t) : t.h < 24 ∧ t.m < 60 ∧ t.s < 60 := by
  simp only [parse_time_strategy2] at h
  split at h
  · split at h
    · split at h
      · split_ifs at h with hc
        obtain rfl := Option.some.inj h
        refine ⟨?_, ?_, ?_⟩ <;> simp <;> omega
      · cases h
    · cases h
  · cases h

/-- Claim C10: the schedule time-of-day parser is total on strings: every
input yields an in-range time value, and a string rejected by both parsing
strategies falls back to midnight instead of being skipped or failing the
store. -/
theorem C10_parse_time_total (s : PyStr) :
    (parse_time_strategy1 s = none → parse_time_strategy2 s = none →
      parse_time s = ⟨0, 0, 0⟩) ∧
    (parse_time s).h < 24 ∧ (parse_time s).m < 60 ∧ (parse_time s).s < 60 := by
  constructor
  · intro h1 h2
    rw [parse_time, h1, h2]
  · rw [parse_time]
    cases h1 : parse_time_strategy1 s with
    | some t => exact fromIsoformat_bounds _ t h1
    | none =>
      cases h2 : parse_time_strategy2 s with
      | some t => exact parse_time_strategy2_bounds s t h2
      | none => exact ⟨by decide, by decide, by decide⟩

theorem C10_parse_time_total_witness :
    parse_time_strategy1 (pyOf ("garbage")) = none ∧
    parse_time_strategy2 (pyOf ("garbage")) = none ∧
    parse_time (pyOf ("garbage")) = ⟨0, 0, 0⟩ :=
  ⟨by decide, by decide,
    (C10_parse_time_total (pyOf ("garbage"))).1 (by decide) (by decide)⟩


theorem get_latest_pending_active (db : List ReportRec) (r : ReportRec)
    (h : get_latest_pending_report db = some r) :
    r ∈ db ∧ (r.status = pyOf ("PENDING") ∨ r.status = pyOf ("RUNNING")) := by
  unfold get_latest_pending_report at h
  cases hl : List.insertionSort (fun a b : ReportRec => b.created_at ≤ a.created_at)
      (db.filter (fun x => x.status = pyOf ("PENDING") || x.status = pyOf ("RUNNING"))) with
  | nil => rw [hl] at h; cases h
  | cons x xs =>
    rw [hl] at h
    have hxr : x = r := Option.some.inj h
    have hx : r ∈ List.insertionSort (fun a b : ReportRec => b.created_at ≤ a.created_at)
        (db.filter (fun x => x.status = pyOf ("PENDING") || x.status = pyOf ("RUNNING"))) := by
      rw [hl, ← hxr]
      exact List.mem_cons_self _ _
    have hf := (List.perm_insertionSort
      (fun a b : ReportRec => b.created_at ≤ a.created_at) _).mem_iff.1 hx
    obtain ⟨hmem, hp⟩ := List.mem_filter.1 hf
    refine ⟨hmem, ?_⟩
    simpa [Bool.or_eq_true, decide_eq_true_eq] using hp

/-- Claim C3 (amended): when the trigger runs while a PENDING or RUNNING
record exists, the service-level creation returns an unsuccessful
CREATION_BLOCKED result whose payload carries that record's id (it does
not return the id as a successful result; the HTTP controller turns this
into a 409 error), it leaves the job table unchanged, and it enqueues no
work item. -/
theorem C3_trigger_blocked (db : List ReportRec) (newId : PyStr) (now : Nat) (r : ReportRec)
    (h : get_latest_pending_report db = some r) :
    r ∈ db ∧ (r.status = pyOf ("PENDING") ∨ r.status = pyOf ("RUNNING")) ∧
    create_new_report db newId now =
      (db, [],
        { success := false
          error_code := some (pyOf ("CREATION_BLOCKED"))
          new_report_id := none
          existing_id := some r.report_id
          message := blockedMessage r }) := by
  obtain ⟨h1, h2⟩ := get_latest_pending_active db r h
  refine ⟨h1, h2, ?_⟩
  rw [create_new_report, h]

theorem C3_trigger_counterexample :
    (create_new_report [⟨pyOf ("r1"), pyOf ("PENDING"), none, 5⟩] (pyOf ("n1")) 9).2.2.success
      = false ∧
    (create_new_report [⟨pyOf ("r1"), pyOf ("PENDING"), none, 5⟩] (pyOf ("n1")) 9).2.2.new_report_id
      = none ∧
    (create_new_report [⟨pyOf ("r1"), pyOf ("PENDING"), none, 5⟩] (pyOf ("n1")) 9).1
      = [⟨pyOf ("r1"), pyOf ("PENDING"), none, 5⟩] ∧
    (create_new_report [⟨pyOf ("r1"), pyOf ("PENDING"), none, 5⟩] (pyOf ("n1")) 9).2.1
      = ([] : List PyStr) :=
  ⟨by decide, by decide, by decide, by decide⟩

theorem C3_trigger_blocked_witness :
    get_latest_pending_report [⟨pyOf ("r1"), pyOf ("PENDING"), none, 5⟩] =
      some ⟨pyOf ("r1"), pyOf ("PENDING"), none, 5⟩ ∧
    ((⟨pyOf ("r1"), pyOf ("PENDING"), none, 5⟩ : ReportRec) ∈
        [(⟨pyOf ("r1"), pyOf ("PENDING"), none, 5⟩ : ReportRec)] ∧
      ((⟨pyOf ("r1"), pyOf ("PENDING"), none, 5⟩ : ReportRec).status = pyOf ("PENDING") ∨
        (⟨pyOf ("r1"), pyOf ("PENDING"), none, 5⟩ : ReportRec).status = pyOf ("RUNNING")) ∧
      create_new_report [⟨pyOf ("r1"), pyOf ("PENDING"), none, 5⟩] (pyOf ("n1")) 9 =
        ([⟨pyOf ("r1"), pyOf ("PENDING"), none, 5⟩], [],
          { success := false
            error_code := some (pyOf ("CREATION_BLOCKED"))
            new_report_id := none
            existing_id := some (⟨pyOf ("r1"), pyOf ("PENDING"), none, 5⟩ : ReportRec).report_id
            message := blockedMessage ⟨pyOf ("r1"), pyOf ("PENDING"), none, 5⟩ })) :=
  ⟨by decide,
    C3_trigger_blocked [⟨pyOf ("r1"), pyOf ("PENDING"), none, 5⟩] (pyOf ("n1")) 9
      ⟨pyOf ("r1"), pyOf ("PENDING"), none, 5⟩ (by decide)⟩

/-- Claim C4 (amended): the service-level status query maps PENDING and
RUNNING to display status "RUNNING" with no url, FAILED to "FAILED" with
no url, and COMPLETE to "COMPLETED" (not "Complete") with the translated
url; a url is exposed only when the stored status is COMPLETE.  The
`main.py` endpoint uses the spellings "Running", "Failed" and "Complete"
but its response model carries no url at all. -/
theorem C4_status_mapping (r : ReportRec) :
    ((r.status = pyOf ("PENDING") ∨ r.status = pyOf ("RUNNING")) →
      get_report_with_url_logic r = (pyOf ("RUNNING"), none)) ∧
    (r.status = pyOf ("FAILED") → get_report_with_url_logic r = (pyOf ("FAILED"), none)) ∧
    (r.status = pyOf ("COMPLETE") → (get_report_with_url_logic r).1 = pyOf ("COMPLETED")) ∧
    ((get_report_with_url_logic r).2 ≠ none → r.status = pyOf ("COMPLETE")) ∧
    (main_get_report_status (pyOf ("PENDING")) = pyOf ("Running") ∧
      main_get_report_status (pyOf ("RUNNING")) = pyOf ("Running") ∧
      main_get_report_status (pyOf ("FAILED")) = pyOf ("Failed") ∧
      main_get_report_status (pyOf ("COMPLETE")) = pyOf ("Complete")) := by
  refine ⟨?_, ?_, ?_, ?_, by decide, by decide, by decide, by decide⟩
  · rintro (h | h) <;>
      (simp only [get_report_with_url_logic, h]; simp)
  · intro h
    simp only [get_report_with_url_logic, h]
    have hb1 : ¬ ((pyOf ("FAILED") = pyOf ("PENDING") || pyOf ("FAILED") = pyOf ("RUNNING"))
        = true) := by decide
    rw [if_neg hb1]
    simp
  · intro h
    simp only [get_report_with_url_logic, h]
    have hb1 : ¬ ((pyOf ("COMPLETE") = pyOf ("PENDING") ||
        pyOf ("COMPLETE") = pyOf ("RUNNING")) = true) := by decide
    have hb2 : ¬ (pyOf ("COMPLETE") = pyOf ("FAILED")) := by decide
    rw [if_neg hb1, if_neg hb2]
    simp
  · intro hne
    simp only [get_report_with_url_logic] at hne
    split_ifs at hne with h1 h2 h3
    · simp at hne
    · simp at hne
    · exact h3
    · simp at hne

theorem C4_status_counterexample :
    get_report_with_url_logic
        ⟨pyOf ("r4"), pyOf ("COMPLETE"), some (pyOf ("file:///app/reports/x.json")), 3⟩ =
      (pyOf ("COMPLETED"), some (pyOf ("/files/reports/x.csv"))) ∧
    pyOf ("COMPLETED") ≠ pyOf ("Complete") :=
  ⟨by decide, by decide⟩

theorem C4_status_mapping_witness :
    (get_report_with_url_logic
        ⟨pyOf ("r4"), pyOf ("COMPLETE"), some (pyOf ("file:///app/reports/x.json")), 3⟩).1 =
      pyOf ("COMPLETED") ∧
    get_report_with_url_logic ⟨pyOf ("r5"), pyOf ("FAILED"), none, 4⟩ =
      (pyOf ("FAILED"), none) :=
  ⟨(C4_status_mapping
      ⟨pyOf ("r4"), pyOf ("COMPLETE"), some (pyOf ("file:///app/reports/x.json")), 3⟩).2.2.1
      (by decide),
    (C4_status_mapping ⟨pyOf ("r5"), pyOf ("FAILED"), none, 4⟩).2.1 (by decide)⟩

theorem dictFind_dictStore_self (d : PollDict) (k : Int) (v : Int × PyStr) :
    dictFind (dictStore d k v) k = some v := by
  induction d with
  | nil => simp [dictStore, dictFind]
  | cons e rest ih =>
    obtain ⟨k0, v0⟩ := e
    simp only [dictStore]
    by_cases hk : k0 = k
    · rw [if_pos hk]
      simp [dictFind]
    · rw [if_neg hk]
      simp only [dictFind]
      rw [if_neg hk, ih]

theorem dictFind_dictStore_ne (d : PollDict) (k k' : Int) (v : Int × PyStr) (h : k' ≠ k) :
    dictFind (dictStore d k v) k' = dictFind d k' := by
  induction d with
  | nil =>
    simp only [dictStore, dictFind]
    rw [if_neg (fun he : k = k' => h he.symm)]
  | cons e rest ih =>
    obtain ⟨k0, v0⟩ := e
    simp only [dictStore]
    by_cases hk : k0 = k
    · rw [if_pos hk]
      simp only [dictFind]
      rw [if_neg (fun he : k = k' => h he.symm),
        if_neg (fun he : k0 = k' => h (hk.symm.trans he).symm)]
    · rw [if_neg hk]
      simp only [dictFind]
      by_cases hk2 : k0 = k'
      · rw [if_pos hk2, if_pos hk2]
      · rw [if_neg hk2, if_neg hk2, ih]

theorem pollStep_eq_none (tz : Tz) (nl : Aware) (d : PollDict) (row : Int × PyStr)
    (hm : map_status row.2 = none) : pollStep tz nl d row = d := by
  simp [pollStep, hm]

theorem pollStep_eq_notfound (tz : Tz) (nl : Aware) (d : PollDict) (row : Int × PyStr)
    (m : PyStr) (hm : map_status row.2 = some m)
    (hf : dictFind d (pollIdx tz nl row.1) = none) :
    pollStep tz nl d row = dictStore d (pollIdx tz nl row.1) (row.1, m) := by
  simp [pollStep, hm, hf]

theorem pollStep_eq_newer (tz : Tz) (nl : Aware) (d : PollDict) (row : Int × PyStr)
    (m : PyStr) (t0 : Int) (s0 : PyStr) (hm : map_status row.2 = some m)
    (hf : dictFind d (pollIdx tz nl row.1) = some (t0, s0)) (hlt : t0 < row.1) :
    pollStep tz nl d row = dictStore d (pollIdx tz nl row.1) (row.1, m) := by
  simp [pollStep, hm, hf, hlt]

theorem pollStep_eq_older (tz : Tz) (nl : Aware) (d : PollDict) (row : Int × PyStr)
    (m : PyStr) (t0 : Int) (s0 : PyStr) (hm : map_status row.2 = some m)
    (hf : dictFind d (pollIdx tz nl row.1) = some (t0, s0)) (hnlt : ¬ t0 < row.1) :
    pollStep tz nl d row = d := by
  simp [pollStep, hm, hf, hnlt]

theorem pollStep_find_mono (tz : Tz) (nl : Aware) (d : PollDict) (row : Int × PyStr)
    (k t0 : Int) (s0 : PyStr) (h : dictFind d k = some (t0, s0)) :
    ∃ t1 s1, dictFind (pollStep tz nl d row) k = some (t1, s1) ∧ t0 ≤ t1 := by
  cases hm : map_status row.2 with
  | none =>
    rw [pollStep_eq_none tz nl d row hm]
    exact ⟨t0, s0, h, le_refl t0⟩
  | some m =>
    cases hf : dictFind d (pollIdx tz nl row.1) with
    | none =>
      rw [pollStep_eq_notfound tz nl d row m hm hf]
      by_cases hk : pollIdx tz nl row.1 = k
      · rw [hk] at hf
        rw [hf] at h
        cases h
      · rw [dictFind_dictStore_ne d _ k _ (fun he => hk he.symm)]
        exact ⟨t0, s0, h, le_refl t0⟩
    | some p =>
      obtain ⟨t2, s2⟩ := p
      by_cases hlt : t2 < row.1
      · rw [pollStep_eq_newer tz nl d row m t2 s2 hm hf hlt]
        by_cases hk : pollIdx tz nl row.1 = k
        · subst hk
          rw [hf] at h
          obtain ⟨he1, he2⟩ := Prod.mk.injEq .. ▸ Option.some.inj h
          refine ⟨row.1, m, dictFind_dictStore_self d _ (row.1, m), ?_⟩
          omega
        · rw [dictFind_dictStore_ne d _ k _ (fun he => hk he.symm)]
          exact ⟨t0, s0, h, le_refl t0⟩
      · rw [pollStep_eq_older tz nl d row m t2 s2 hm hf hlt]
        exact ⟨t0, s0, h, le_refl t0⟩

theorem foldl_pollStep_mono (tz : Tz) (nl : Aware) (l : List (Int × PyStr)) :
    ∀ (d : PollDict) (k t0 : Int) (s0 : PyStr), dictFind d k = some (t0, s0) →
      ∃ t1 s1, dictFind (l.foldl (pollStep tz nl) d) k = some (t1, s1) ∧ t0 ≤ t1 := by
  induction l with
  | nil => exact fun d k t0 s0 h => ⟨t0, s0, h, le_refl t0⟩
  | cons x rest ih =>
    intro d k t0 s0 h
    obtain ⟨t1, s1, h1, hle1⟩ := pollStep_find_mono tz nl d x k t0 s0 h
    obtain ⟨t2, s2, h2, hle2⟩ := ih (pollStep tz nl d x) k t1 s1 h1
    exact ⟨t2, s2, h2, le_trans hle1 hle2⟩

theorem pollStep_dominates (tz : Tz) (nl : Aware) (d : PollDict) (row : Int × PyStr)
    (m : PyStr) (hm : map_status row.2 = some m) :
    ∃ t1 s1, dictFind (pollStep tz nl d row) (pollIdx tz nl row.1) = some (t1, s1) ∧
      row.1 ≤ t1 := by
  cases hf : dictFind d (pollIdx tz nl row.1) with
  | none =>
    rw [pollStep_eq_notfound tz nl d row m hm hf]
    exact ⟨row.1, m, dictFind_dictStore_self d _ (row.1, m), le_refl _⟩
  | some p =>
    obtain ⟨t2, s2⟩ := p
    by_cases hlt : t2 < row.1
    · rw [pollStep_eq_newer tz nl d row m t2 s2 hm hf hlt]
      exact ⟨row.1, m, dictFind_dictStore_self d _ (row.1, m), le_refl _⟩
    · rw [pollStep_eq_older tz nl d row m t2 s2 hm hf hlt]
      exact ⟨t2, s2, hf, not_lt.1 hlt⟩

theorem foldl_pollStep_dominates (tz : Tz) (nl : Aware) (l : List (Int × PyStr)) :
    ∀ (d : PollDict) (row : Int × PyStr), row ∈ l → ∀ m, map_status row.2 = some m →
      ∃ t1 s1, dictFind (l.foldl (pollStep tz nl) d) (pollIdx tz nl row.1) = some (t1, s1) ∧
        row.1 ≤ t1 := by
  induction l with
  | nil =>
    intro d row h
    cases h
  | cons x rest ih =>
    intro d row hrow m hm
    rcases List.mem_cons.1 hrow with rfl | hmem
    · obtain ⟨t1, s1, h1, hle⟩ := pollStep_dominates tz nl d row m hm
      obtain ⟨t2, s2, h2, hle2⟩ := foldl_pollStep_mono tz nl rest _ _ t1 s1 h1
      exact ⟨t2, s2, h2, le_trans hle hle2⟩
    · exact ih (pollStep tz nl d x) row hmem m hm

theorem pollStep_noop (tz : Tz) (nl : Aware) (d : PollDict) (row : Int × PyStr)
    (h : map_status row.2 = none ∨
      ∃ t1 s1, dictFind d (pollIdx tz nl row.1) = some (t1, s1) ∧ row.1 ≤ t1) :
    pollStep tz nl d row = d := by
  rcases h with hm | ⟨t1, s1, hf, hle⟩
  · exact pollStep_eq_none tz nl d row hm
  · cases hm : map_status row.2 with
    | none => exact pollStep_eq_none tz nl d row hm
    | some m => exact pollStep_eq_older tz nl d row m t1 s1 hm hf (not_lt.2 hle)

theorem foldl_pollStep_noop (tz : Tz) (nl : Aware) (l : List (Int × PyStr)) (d : PollDict)
    (h : ∀ row ∈ l, map_status row.2 = none ∨
      ∃ t1 s1, dictFind d (pollIdx tz nl row.1) = some (t1, s1) ∧ row.1 ≤ t1) :
    l.foldl (pollStep tz nl) d = d := by
  induction l with
  | nil => rfl
  | cons x rest ih =>
    have hx := pollStep_noop tz nl d x (h x (List.mem_cons_self x rest))
    rw [List.foldl_cons, hx]
    exact ih (fun row hr => h row (List.mem_cons_of_mem x hr))

theorem per_min_dict_dup (rows : List (Int × PyStr)) (tz : Tz) (nl : Aware) :
    per_min_dict (rows ++ rows) tz nl = per_min_dict rows tz nl := by
  unfold per_min_dict
  rw [List.filter_append, List.foldl_append]
  apply foldl_pollStep_noop
  intro row hr
  cases hm : map_status row.2 with
  | none => exact Or.inl rfl
  | some m =>
    exact Or.inr (foldl_pollStep_dominates tz nl _ [] row hr m hm)

theorem load_polls_dup (rows : List (Int × PyStr)) (tz : Tz) (nl : Aware) :
    load_polls (rows ++ rows) tz nl = load_polls rows tz nl := by
  unfold load_polls
  rw [per_min_dict_dup]

theorem per_min_dict_add_older (rows : List (Int × PyStr)) (tz : Tz) (nl : Aware)
    (tnew t0 : Int) (snew s0 : PyStr)
    (hf : dictFind (per_min_dict rows tz nl) (pollIdx tz nl tnew) = some (t0, s0))
    (hold : tnew < t0) :
    per_min_dict (rows ++ [(tnew, snew)]) tz nl = per_min_dict rows tz nl := by
  unfold per_min_dict at hf ⊢
  rw [List.filter_append, List.foldl_append]
  by_cases hp : nl.1 - (10080 + 1440) * 60 ≤ tnew
  · have hfl : List.filter (fun r => decide (nl.1 - (10080 + 1440) * 60 ≤ r.1)) [(tnew, snew)]
        = [(tnew, snew)] := by
      have hp2 : nl.1 ≤ tnew + 691200 := by omega
      simp [List.filter, hp2]
    rw [hfl, List.foldl_cons, List.foldl_nil]
    exact pollStep_noop tz nl _ (tnew, snew) (Or.inr ⟨t0, s0, hf, le_of_lt hold⟩)
  · have hfl : List.filter (fun r => decide (nl.1 - (10080 + 1440) * 60 ≤ r.1)) [(tnew, snew)]
        = [] := by
      have hp2 : ¬ (nl.1 ≤ tnew + 691200) := by omega
      simp [List.filter, hp2]
    rw [hfl, List.foldl_nil]

theorem load_polls_add_older (rows : List (Int × PyStr)) (tz : Tz) (nl : Aware)
    (tnew t0 : Int) (snew s0 : PyStr)
    (hf : dictFind (per_min_dict rows tz nl) (pollIdx tz nl tnew) = some (t0, s0))
    (hold : tnew < t0) :
    load_polls (rows ++ [(tnew, snew)]) tz nl = load_polls rows tz nl := by
  unfold load_polls
  rw [per_min_dict_add_older rows tz nl tnew t0 snew s0 hf hold]

/-- Claim C7: deduplication keeps the latest-UTC sample per minute index,
so duplicating the store's raw rows bit for bit leaves the report row
unchanged, and so does appending a sample strictly older than the sample
the dedup kept for the same minute index. -/
theorem C7_dedup_idempotent (sid : PyStr) (rows : List (Int × PyStr))
    (sched : List (Int × PyStr × PyStr)) (tz : Tz) (maxUtc : Int) (tnew : Int) (snew : PyStr) :
    proc_store sid (rows ++ rows) sched tz maxUtc = proc_store sid rows sched tz maxUtc ∧
    (∀ t0 s0,
      dictFind (per_min_dict rows tz (floor_min (astz tz maxUtc)))
          (pollIdx tz (floor_min (astz tz maxUtc)) tnew) = some (t0, s0) →
      tnew < t0 →
      proc_store sid (rows ++ [(tnew, snew)]) sched tz maxUtc =
        proc_store sid rows sched tz maxUtc) := by
  constructor
  · simp only [proc_store, load_polls_dup]
  · intro t0 s0 hf hold
    have heq := load_polls_add_older rows tz (floor_min (astz tz maxUtc)) tnew t0 snew s0 hf hold
    simp only [proc_store, heq]

theorem C7_dedup_idempotent_witness :
    dictFind (per_min_dict [((-580 : Int), pyOf ("active"))] tzUTC (floor_min (astz tzUTC 0)))
        (pollIdx tzUTC (floor_min (astz tzUTC 0)) (-590)) = some (-580, actS) ∧
    ((-590 : Int) < -580) ∧
    proc_store (pyOf ("s7")) ([((-580 : Int), pyOf ("active"))] ++ [((-580 : Int), pyOf ("active"))])
        [] tzUTC 0 = proc_store (pyOf ("s7")) [((-580 : Int), pyOf ("active"))] [] tzUTC 0 ∧
    proc_store (pyOf ("s7")) ([((-580 : Int), pyOf ("active"))] ++ [((-590 : Int), pyOf ("active"))])
        [] tzUTC 0 = proc_store (pyOf ("s7")) [((-580 : Int), pyOf ("active"))] [] tzUTC 0 :=
  ⟨by decide, by decide,
    (C7_dedup_idempotent (pyOf ("s7")) [((-580 : Int), pyOf ("active"))] [] tzUTC 0 (-590)
      (pyOf ("active"))).1,
    (C7_dedup_idempotent (pyOf ("s7")) [((-580 : Int), pyOf ("active"))] [] tzUTC 0 (-590)
      (pyOf ("active"))).2 (-580) actS (by decide) (by decide)⟩

theorem tilesDesc_le (l : List (Int × Int × PyStr)) :
    ∀ lo hi : Int, tilesDesc l lo hi = true → lo ≤ hi := by
  induction l with
  | nil =>
    intro lo hi h
    simp [tilesDesc] at h
    omega
  | cons x rest ih =>
    intro lo hi h
    obtain ⟨a, b, s⟩ := x
    simp only [tilesDesc, Bool.and_eq_true, decide_eq_true_eq] at h
    obtain ⟨⟨hb, hab⟩, hrest⟩ := h
    have := ih lo a hrest
    omega

theorem tilesDesc_mem_bounds (l : List (Int × Int × PyStr)) :
    ∀ lo hi : Int, tilesDesc l lo hi = true → ∀ x ∈ l, lo ≤ x.1 ∧ x.1 < hi := by
  induction l with
  | nil =>
    intro lo hi _ x hx
    cases hx
  | cons y rest ih =>
    intro lo hi h x hx
    obtain ⟨a, b, s⟩ := y
    simp only [tilesDesc, Bool.and_eq_true, decide_eq_true_eq] at h
    obtain ⟨⟨hb, hab⟩, hrest⟩ := h
    have hlo := tilesDesc_le rest lo a hrest
    rcases List.mem_cons.1 hx with rfl | hmem
    · constructor
      · exact hlo
      · omega
    · have := ih lo a hrest x hmem
      omega

theorem spanWalk_tilesDesc (w0 : Int) :
    ∀ (l : List (Int × PyStr)) (pk : Int) (ps : PyStr), w0 ≤ pk →
      (∀ p ∈ l, w0 ≤ p.1 ∧ p.1 ≤ pk) →
      List.Sorted (fun a b : Int × PyStr => b.1 ≤ a.1) l →
      tilesDesc (spanWalk w0 pk ps l) w0 pk = true := by
  intro l
  induction l with
  | nil =>
    intro pk ps hw _ _
    simp only [spanWalk]
    rw [min_eq_left hw, max_eq_right hw]
    by_cases hlt : w0 < pk
    · rw [if_pos hlt]
      simp [tilesDesc, hlt]
    · rw [if_neg hlt]
      have : w0 = pk := by omega
      simp [tilesDesc, this]
  | cons x rest ih =>
    intro pk ps hw hb hs
    obtain ⟨k, s⟩ := x
    have hk := hb (k, s) (List.mem_cons_self _ _)
    obtain ⟨hw0k, hkpk⟩ := hk
    obtain ⟨hhead, hrest⟩ := List.sorted_cons.1 hs
    have hbrest : ∀ p ∈ rest, w0 ≤ p.1 ∧ p.1 ≤ k := by
      intro p hp
      exact ⟨(hb p (List.mem_cons_of_mem _ hp)).1, hhead p hp⟩
    simp only [spanWalk]
    rw [min_eq_left hkpk, max_eq_right hkpk]
    by_cases hlt : k < pk
    · rw [if_pos hlt]
      simp only [List.cons_append, List.nil_append, tilesDesc, Bool.and_eq_true,
        decide_eq_true_eq]
      exact ⟨⟨trivial, hlt⟩, ih k s hw0k hbrest hrest⟩
    · rw [if_neg hlt]
      have heq : k = pk := by omega
      simp only [List.nil_append]
      rw [← heq]
      exact ih k s hw0k hbrest hrest

theorem orderedInsert_append (r : (Int × Int × PyStr) → (Int × Int × PyStr) → Prop)
    [DecidableRel r] (a : Int × Int × PyStr) (l : List (Int × Int × PyStr))
    (h : ∀ b ∈ l, ¬ r a b) : List.orderedInsert r a l = l ++ [a] := by
  induction l with
  | nil => rfl
  | cons x rest ih =>
    simp only [List.orderedInsert]
    rw [if_neg (h x (List.mem_cons_self _ _))]
    rw [ih (fun b hb => h b (List.mem_cons_of_mem _ hb))]
    rfl

theorem insertionSort_eq_reverse (r : (Int × Int × PyStr) → (Int × Int × PyStr) → Prop)
    [DecidableRel r] (l : List (Int × Int × PyStr))
    (h : l.Pairwise (fun x y => ¬ r x y)) :
    List.insertionSort r l = l.reverse := by
  induction l with
  | nil => rfl
  | cons x rest ih =>
    obtain ⟨hhead, htail⟩ := List.pairwise_cons.1 h
    simp only [List.insertionSort]
    rw [ih htail]
    rw [orderedInsert_append r x rest.reverse (fun b hb => hhead b (List.mem_reverse.1 hb))]
    simp

theorem tilesDesc_pairwise (l : List (Int × Int × PyStr)) :
    ∀ lo hi : Int, tilesDesc l lo hi = true → l.Pairwise (fun x y => y.1 < x.1) := by
  induction l with
  | nil => exact fun lo hi _ => List.Pairwise.nil
  | cons x rest ih =>
    intro lo hi h
    obtain ⟨a, b, s⟩ := x
    simp only [tilesDesc, Bool.and_eq_true, decide_eq_true_eq] at h
    obtain ⟨⟨hb, hab⟩, hrest⟩ := h
    refine List.pairwise_cons.2 ⟨?_, ih lo a hrest⟩
    intro y hy
    exact (tilesDesc_mem_bounds rest lo a hrest y hy).2

theorem tilesAsc_append (l1 : List (Int × Int × PyStr)) :
    ∀ (l2 : List (Int × Int × PyStr)) (lo mid hi : Int),
      tilesAsc l1 lo mid = true → tilesAsc l2 mid hi = true →
      tilesAsc (l1 ++ l2) lo hi = true := by
  induction l1 with
  | nil =>
    intro l2 lo mid hi h1 h2
    simp only [tilesAsc, decide_eq_true_eq] at h1
    rw [List.nil_append, h1]
    exact h2
  | cons x rest ih =>
    intro l2 lo mid hi h1 h2
    obtain ⟨a, b, s⟩ := x
    simp only [tilesAsc, Bool.and_eq_true, decide_eq_true_eq] at h1 ⊢
    obtain ⟨⟨ha, hab⟩, hrest⟩ := h1
    exact ⟨⟨ha, hab⟩, ih l2 b mid hi hrest h2⟩

theorem tilesDesc_reverse_asc (l : List (Int × Int × PyStr)) :
    ∀ lo hi : Int, tilesDesc l lo hi = true → tilesAsc l.reverse lo hi = true := by
  induction l with
  | nil =>
    intro lo hi h
    simp only [tilesDesc, decide_eq_true_eq] at h
    simp [tilesAsc, h]
  | cons x rest ih =>
    intro lo hi h
    obtain ⟨a, b, s⟩ := x
    simp only [tilesDesc, Bool.and_eq_true, decide_eq_true_eq] at h
    obtain ⟨⟨hb, hab⟩, hrest⟩ := h
    rw [List.reverse_cons]
    refine tilesAsc_append rest.reverse [(a, b, s)] lo a hi (ih lo a hrest) ?_
    subst hb
    simp [tilesAsc, hab]

theorem mergeAdjGo_tiles (rest : List (Int × Int × PyStr)) :
    ∀ (cur : Int × Int × PyStr) (lo hi : Int),
      tilesAsc (cur :: rest) lo hi = true →
      tilesAsc (mergeAdjGo cur rest) lo hi = true := by
  induction rest with
  | nil =>
    intro cur lo hi h
    exact h
  | cons y rest ih =>
    intro cur lo hi h
    obtain ⟨a, b, stc⟩ := cur
    obtain ⟨s1, e1, st⟩ := y
    simp only [tilesAsc, Bool.and_eq_true, decide_eq_true_eq] at h
    obtain ⟨⟨ha, hab⟩, ⟨⟨hs1, hs1e1⟩, hrest⟩⟩ := h
    simp only [mergeAdjGo]
    by_cases hc : stc = st ∧ b = s1
    · rw [if_pos hc]
      apply ih (a, e1, st) lo hi
      simp only [tilesAsc, Bool.and_eq_true, decide_eq_true_eq]
      refine ⟨⟨ha, ?_⟩, hrest⟩
      omega
    · rw [if_neg hc]
      simp only [tilesAsc, Bool.and_eq_true, decide_eq_true_eq]
      refine ⟨⟨ha, hab⟩, ?_⟩
      apply ih (s1, e1, st) b hi
      simp only [tilesAsc, Bool.and_eq_true, decide_eq_true_eq]
      exact ⟨⟨hs1, hs1e1⟩, hrest⟩

theorem minByK_go (l : List (Int × PyStr)) :
    ∀ (acc : Option (Int × PyStr)) (m : Int × PyStr),
      l.foldl
        (fun acc x =>
          match acc with
          | none => some x
          | some mm => if x.1 < mm.1 then some x else some mm) acc = some m →
      acc = some m ∨ m ∈ l := by
  induction l with
  | nil =>
    intro acc m h
    exact Or.inl h
  | cons x rest ih =>
    intro acc m h
    rcases ih _ m h with hacc | hmem
    · dsimp only at hacc
      cases acc with
      | none =>
        have hx : x = m := Option.some.inj hacc
        exact Or.inr (hx ▸ List.mem_cons_self x rest)
      | some mm =>
        have hacc2 : (if x.1 < mm.1 then some x else some mm) = some m := hacc
        by_cases hlt : x.1 < mm.1
        · rw [if_pos hlt] at hacc2
          have hx : x = m := Option.some.inj hacc2
          exact Or.inr (hx ▸ List.mem_cons_self x rest)
        · rw [if_neg hlt] at hacc2
          exact Or.inl hacc2
    · exact Or.inr (List.mem_cons_of_mem x hmem)

theorem minByK_mem (l : List (Int × PyStr)) (m : Int × PyStr) (h : minByK l = some m) :
    m ∈ l :=
  (minByK_go l none m h).resolve_left (fun h' => Option.noConfusion h')

theorem spans_seed_status (polls : List (Int × PyStr)) (W : Int × Int) :
    spans_seed polls W = inactS ∨ ∃ p ∈ polls, spans_seed polls W = p.2 := by
  unfold spans_seed
  cases h1 : minByK (polls.filter (fun p => W.2 - 1 ≤ p.1)) with
  | some m =>
    exact Or.inr ⟨m, (List.mem_filter.1 (minByK_mem _ m h1)).1, rfl⟩
  | none =>
    cases h2 : minByK (polls.filter (fun p => W.1 ≤ p.1 ∧ p.1 < W.2)) with
    | some m =>
      exact Or.inr ⟨m, (List.mem_filter.1 (minByK_mem _ m h2)).1, rfl⟩
    | none => exact Or.inl rfl

theorem spanWalk_status (w0 : Int) :
    ∀ (l : List (Int × PyStr)) (pk : Int) (ps : PyStr) (sp : Int × Int × PyStr),
      sp ∈ spanWalk w0 pk ps l → sp.2.2 = ps ∨ ∃ p ∈ l, sp.2.2 = p.2 := by
  intro l
  induction l with
  | nil =>
    intro pk ps sp hsp
    simp only [spanWalk] at hsp
    by_cases h : min w0 pk < max w0 pk
    · rw [if_pos h] at hsp
      rcases List.mem_singleton.1 hsp with rfl
      exact Or.inl rfl
    · rw [if_neg h] at hsp
      cases hsp
  | cons x rest ih =>
    intro pk ps sp hsp
    obtain ⟨k, s⟩ := x
    simp only [spanWalk] at hsp
    rcases List.mem_append.1 hsp with h1 | h2
    · by_cases h : min k pk < max k pk
      · rw [if_pos h] at h1
        rcases List.mem_singleton.1 h1 with rfl
        exact Or.inl rfl
      · rw [if_neg h] at h1
        cases h1
    · rcases ih k s sp h2 with he | ⟨p, hp, he⟩
      · exact Or.inr ⟨(k, s), List.mem_cons_self _ _, he⟩
      · exact Or.inr ⟨p, List.mem_cons_of_mem _ hp, he⟩

theorem mergeAdjGo_status (rest : List (Int × Int × PyStr)) :
    ∀ (cur : Int × Int × PyStr) (sp : Int × Int × PyStr), sp ∈ mergeAdjGo cur rest →
      sp.2.2 = cur.2.2 ∨ ∃ x ∈ rest, sp.2.2 = x.2.2 := by
  induction rest with
  | nil =>
    intro cur sp hsp
    rcases List.mem_singleton.1 hsp with rfl
    exact Or.inl rfl
  | cons y rest ih =>
    intro cur sp hsp
    obtain ⟨s1, e1, st⟩ := y
    simp only [mergeAdjGo] at hsp
    by_cases hc : cur.2.2 = st ∧ cur.2.1 = s1
    · rw [if_pos hc] at hsp
      rcases ih (cur.1, e1, st) sp hsp with he | ⟨x, hx, he⟩
      · left
        rw [he]
        exact hc.1.symm
      · exact Or.inr ⟨x, List.mem_cons_of_mem _ hx, he⟩
    · rw [if_neg hc] at hsp
      rcases List.mem_cons.1 hsp with rfl | hmem
      · exact Or.inl rfl
      · rcases ih (s1, e1, st) sp hmem with he | ⟨x, hx, he⟩
        · exact Or.inr ⟨(s1, e1, st), List.mem_cons_self _ _, he⟩
        · exact Or.inr ⟨x, List.mem_cons_of_mem _ hx, he⟩

theorem spans_eq_win_nil (polls : List (Int × PyStr)) (hne : polls ≠ [])
    (hwin : polls.filter (fun p => (1 : Int) ≤ p.1 ∧ p.1 < 10081) = []) :
    spans polls (1, 10081) = [(1, 10081, spans_seed polls (1, 10081))] := by
  rw [spans, if_neg hne]
  dsimp only
  rw [if_pos hwin]

theorem spans_eq_win_cons (polls : List (Int × PyStr)) (hne : polls ≠ [])
    (hwin : polls.filter (fun p => (1 : Int) ≤ p.1 ∧ p.1 < 10081) ≠ []) :
    spans polls (1, 10081) =
      (match List.insertionSort segLexLe
          (spanWalk 1 10080 (spans_seed polls (1, 10081))
            (List.insertionSort (fun a b : Int × PyStr => b.1 ≤ a.1)
              (polls.filter (fun p => (1 : Int) ≤ p.1 ∧ p.1 < 10081)))) with
       | [] => []
       | x :: rest => mergeAdjGo x rest) := by
  rw [spans, if_neg hne]
  dsimp only
  rw [if_neg hwin]
  norm_num

/-- Claim C5 (amended): for a non-empty normalized poll sequence with
known statuses, the generated spans form a sorted, pairwise-disjoint,
gap-free ascending chain of active or inactive spans; the chain tiles the
full week window from 1 to 10081 only when no in-window poll exists, and
tiles 1 to 10080 (one minute short of the window edge, because the walk
starts at `start_k = 10080`) when an in-window poll exists. -/
theorem C5_spans_tiling (polls : List (Int × PyStr)) (hne : polls ≠ [])
    (hst : ∀ p ∈ polls, p.2 = actS ∨ p.2 = inactS) :
    (∀ sp ∈ spans polls (1, 10081), sp.2.2 = actS ∨ sp.2.2 = inactS) ∧
    (polls.filter (fun p => (1 : Int) ≤ p.1 ∧ p.1 < 10081) = [] →
      tilesAsc (spans polls (1, 10081)) 1 10081 = true) ∧
    (polls.filter (fun p => (1 : Int) ≤ p.1 ∧ p.1 < 10081) ≠ [] →
      tilesAsc (spans polls (1, 10081)) 1 10080 = true) := by
  have hseed : spans_seed polls (1, 10081) = actS ∨ spans_seed polls (1, 10081) = inactS := by
    rcases spans_seed_status polls (1, 10081) with h | ⟨p, hp, he⟩
    · exact Or.inr h
    · rw [he]
      exact hst p hp
  by_cases hwin : polls.filter (fun p => (1 : Int) ≤ p.1 ∧ p.1 < 10081) = []
  · have hs := spans_eq_win_nil polls hne hwin
    rw [hs]
    refine ⟨?_, fun _ => by simp [tilesAsc], fun hc => absurd hwin hc⟩
    intro sp hsp
    rcases List.mem_singleton.1 hsp with rfl
    exact hseed
  · have hs := spans_eq_win_cons polls hne hwin
    have hsorted : List.Sorted (fun a b : Int × PyStr => b.1 ≤ a.1)
        (List.insertionSort (fun a b : Int × PyStr => b.1 ≤ a.1)
          (polls.filter (fun p => (1 : Int) ≤ p.1 ∧ p.1 < 10081))) :=
      List.sorted_insertionSort _ _
    have hbounds : ∀ p ∈ List.insertionSort (fun a b : Int × PyStr => b.1 ≤ a.1)
        (polls.filter (fun p => (1 : Int) ≤ p.1 ∧ p.1 < 10081)),
        (1 : Int) ≤ p.1 ∧ p.1 ≤ 10080 := by
      intro p hp
      have hpw := (List.perm_insertionSort (fun a b : Int × PyStr => b.1 ≤ a.1) _).mem_iff.1 hp
      have hf := List.mem_filter.1 hpw
      have hcond := of_decide_eq_true hf.2
      omega
    have hchain : tilesDesc
        (spanWalk 1 10080 (spans_seed polls (1, 10081))
          (List.insertionSort (fun a b : Int × PyStr => b.1 ≤ a.1)
            (polls.filter (fun p => (1 : Int) ≤ p.1 ∧ p.1 < 10081)))) 1 10080 = true :=
      spanWalk_tilesDesc 1 _ 10080 _ (by omega) hbounds hsorted
    have hpair2 : (spanWalk 1 10080 (spans_seed polls (1, 10081))
        (List.insertionSort (fun a b : Int × PyStr => b.1 ≤ a.1)
          (polls.filter (fun p => (1 : Int) ≤ p.1 ∧ p.1 < 10081)))).Pairwise
        (fun x y => ¬ segLexLe x y) := by
      refine (tilesDesc_pairwise _ 1 10080 hchain).imp ?_
      intro x y hxy hcon
      rcases hcon with h | ⟨he, _⟩ <;> omega
    have hsorteq := insertionSort_eq_reverse segLexLe _ hpair2
    have hasc := tilesDesc_reverse_asc _ 1 10080 hchain
    have hsegstat : ∀ sp ∈ spanWalk 1 10080 (spans_seed polls (1, 10081))
        (List.insertionSort (fun a b : Int × PyStr => b.1 ≤ a.1)
          (polls.filter (fun p => (1 : Int) ≤ p.1 ∧ p.1 < 10081))),
        sp.2.2 = actS ∨ sp.2.2 = inactS := by
      intro sp hsp
      rcases spanWalk_status 1 _ 10080 _ sp hsp with he | ⟨p, hp, he⟩
      · rw [he]
        exact hseed
      · rw [he]
        have hmem := (List.perm_insertionSort (fun a b : Int × PyStr => b.1 ≤ a.1) _).mem_iff.1 hp
        exact hst p (List.mem_filter.1 hmem).1
    rw [hs, hsorteq]
    cases hrev : (spanWalk 1 10080 (spans_seed polls (1, 10081))
        (List.insertionSort (fun a b : Int × PyStr => b.1 ≤ a.1)
          (polls.filter (fun p => (1 : Int) ≤ p.1 ∧ p.1 < 10081)))).reverse with
    | nil =>
      rw [hrev] at hasc
      simp [tilesAsc] at hasc
    | cons x rest =>
      rw [hrev] at hasc
      refine ⟨?_, fun hc => absurd hc hwin, fun _ => ?_⟩
      · intro sp hsp
        rcases mergeAdjGo_status rest x sp hsp with he | ⟨y, hy, he⟩
        · rw [he]
          refine hsegstat x (List.mem_reverse.1 ?_)
          rw [hrev]
          exact List.mem_cons_self _ _
        · rw [he]
          refine hsegstat y (List.mem_reverse.1 ?_)
          rw [hrev]
          exact List.mem_cons_of_mem _ hy
      · exact mergeAdjGo_tiles rest x 1 10080 hasc

theorem C5_spans_counterexample :
    spans [((5000 : Int), actS)] (1, 10081) = [(1, 10080, actS)] ∧
    tilesAsc (spans [((5000 : Int), actS)] (1, 10081)) 1 10081 = false :=
  ⟨by decide, by decide⟩

theorem C5_spans_tiling_witness :
    ([((5000 : Int), actS)] : List (Int × PyStr)) ≠ [] ∧
    tilesAsc (spans [((5000 : Int), actS)] (1, 10081)) 1 10080 = true :=
  ⟨by decide,
    (C5_spans_tiling [((5000 : Int), actS)] (by decide) (by decide)).2.2 (by decide)⟩

/-- Replacing with a positive skip count copies exactly that many
characters verbatim before the scan resumes. -/
theorem replaceGo_skip (old new l : PyStr) :
    ∀ t : PyStr, replaceGo old new l.length (l ++ t) = replaceGo old new 0 t := by
  induction l with
  | nil => intro t; rfl
  | cons c l ih => intro t; exact ih t

/-- Replacing a pattern that never occurs in the string is the identity. -/
theorem replaceGo_no_occur (old new : PyStr) :
    ∀ s : PyStr, occursB old s = false → replaceGo old new 0 s = s := by
  intro s
  induction s with
  | nil => intro _; rfl
  | cons c rest ih =>
    intro h
    simp only [occursB, Bool.or_eq_false_iff] at h
    have hnp : ¬ (old.isPrefixOf (c :: rest) = true) := by
      simp [h.1]
    simp only [replaceGo]
    rw [if_neg hnp, ih h.2]

/-- Replacing at an occurrence sitting at the head of the string
substitutes the replacement and resumes after the occurrence. -/
theorem replaceGo_head (old new : PyStr) (hne : old ≠ []) (t : PyStr) :
    replaceGo old new 0 (old ++ t) = new ++ replaceGo old new 0 t := by
  cases old with
  | nil => exact absurd rfl hne
  | cons c old2 =>
    have hp : (c :: old2).isPrefixOf (c :: (old2 ++ t)) = true :=
       List.isPrefixOf_iff_prefix.2 ( List.prefix_append (c :: old2) t)
    simp only [List.cons_append, replaceGo, List.append_eq]
    rw [if_pos hp]
    have h1 : (c :: old2).length - 1 = old2.length := by simp
    rw [h1, replaceGo_skip (c :: old2) new old2 t]

/-- Appending the .json pattern to a string free of it and replacing
rewrites exactly the final occurrence to .csv. -/
theorem replace_json_append :
    ∀ b : PyStr, occursB (pyOf (".json")) b = false →
      pyReplace (pyOf (".json")) (pyOf (".csv")) (b ++ pyOf (".json")) =
        b ++ pyOf (".csv") := by
  intro b
  induction b with
  | nil =>
    intro _
    simp only [List.nil_append]
    decide
  | cons c b2 ih =>
    intro hocc
    simp only [occursB, Bool.or_eq_false_iff] at hocc
    have hnp : ¬ ((pyOf (".json")).isPrefixOf (c :: (b2 ++ pyOf (".json"))) = true) := by
      intro hptrue
      have hpre : pyOf (".json") <+: (c :: b2) ++ pyOf (".json") :=
         List.isPrefixOf_iff_prefix.1 hptrue
      have hlen5 : (pyOf (".json")).length = 5 := by decide
      by_cases hlen : 5 ≤ (c :: b2).length
      · have htake := List.prefix_iff_eq_take.1 hpre
        rw [hlen5, List.take_append_of_le_length hlen] at htake
        have hpre2 : pyOf (".json") <+: c :: b2 := by
          rw [List.prefix_iff_eq_take, hlen5]
          exact htake
        have hopos : (pyOf (".json")).isPrefixOf (c :: b2) = true :=
           List.isPrefixOf_iff_prefix.2 hpre2
        rw [hocc.1] at hopos
        exact absurd hopos (by decide)
      · have hpre4 := hpre
        obtain ⟨r, hr⟩ := hpre4
        have hL : (c :: b2).length ≤ (pyOf (".json")).length := by
          rw [hlen5]
          omega
        have h1 : ((c :: b2) ++ pyOf (".json")).take ((c :: b2).length) = c :: b2 :=
          List.take_left _ _
        rw [← hr, List.take_append_of_le_length hL] at h1
        have hlc : (c :: b2).length = b2.length + 1 := List.length_cons c b2
        rw [← h1, hlc] at hpre
        have hcase : b2.length = 0 ∨ b2.length = 1 ∨ b2.length = 2 ∨ b2.length = 3 := by
          rw [hlc] at hlen
          omega
        rcases hcase with h0 | h0 | h0 | h0 <;>
          (rw [h0] at hpre; exact absurd ( List.isPrefixOf_iff_prefix.2 hpre) (by decide))
    have hih : replaceGo (pyOf (".json")) (pyOf (".csv")) 0 (b2 ++ pyOf (".json")) =
        b2 ++ pyOf (".csv") := ih hocc.2
    show replaceGo (pyOf (".json")) (pyOf (".csv")) 0 ((c :: b2) ++ pyOf (".json")) =
      (c :: b2) ++ pyOf (".csv")
    simp only [List.cons_append, replaceGo, List.append_eq]
    rw [if_neg hnp, hih]

/-- Splitting on a separator character absent from the string yields one
chunk made of the accumulator and the rest. -/
theorem splitGo_no_sep (c : Char) :
    ∀ s cur : PyStr, c ∉ s → splitGo [c] cur 0 s = [cur.reverse ++ s] := by
  intro s
  induction s with
  | nil =>
    intro cur _
    simp [splitGo]
  | cons ch rest ih =>
    intro cur hcn
    have hne : ¬ (c = ch) := fun he => hcn (by rw [he]; exact List.mem_cons_self ch rest)
    have hnp : ¬ (([c] : PyStr).isPrefixOf (ch :: rest) = true) := by
      simp [List.isPrefixOf, hne]
    simp only [splitGo]
    rw [if_neg hnp, ih (ch :: cur) (fun hm => hcn (List.mem_cons_of_mem ch hm))]
    simp

/-- The last chunk of a split at the final separator occurrence is the
tail that follows it. -/
theorem splitGo_last (c : Char) (name : PyStr) (hn : c ∉ name) :
    ∀ p cur d : PyStr, (splitGo [c] cur 0 (p ++ c :: name)).getLastD d = name := by
  intro p
  induction p with
  | nil =>
    intro cur d
    have hp : (([c] : PyStr)).isPrefixOf (c :: name) = true := by
      simp [List.isPrefixOf]
    simp only [List.nil_append, splitGo]
    rw [if_pos hp]
    have h0 : (([c] : PyStr)).length - 1 = 0 := rfl
    rw [h0, splitGo_no_sep c name [] hn, List.getLastD_cons]
    simp
  | cons ch p2 ih =>
    intro cur d
    simp only [List.cons_append, splitGo, List.append_eq]
    by_cases hch : c = ch
    · have hp : (([c] : PyStr)).isPrefixOf (ch :: (p2 ++ c :: name)) = true := by
        simp [List.isPrefixOf, hch]
      rw [if_pos hp]
      have h0 : (([c] : PyStr)).length - 1 = 0 := rfl
      rw [h0, List.getLastD_cons]
      exact ih [] (cur.reverse)
    · have hnp : ¬ ((([c] : PyStr)).isPrefixOf (ch :: (p2 ++ c :: name)) = true) := by
        simp [List.isPrefixOf, hch]
      rw [if_neg hnp]
      exact ih (ch :: cur) d

/-- Last path component of a slash-separated path whose final component
holds no slash. -/
theorem pySplit_last (dir name : PyStr) (hn : ('/' : Char) ∉ name) :
    (pySplit (pyOf ("/")) (dir ++ '/' :: name)).getLastD [] = name := by
  have hsep : pyOf ("/") = ['/'] := by decide
  rw [pySplit, hsep]
  exact splitGo_last '/' name hn dir [] []

/-- Characterization of the translator on a well-formed file reference:
it keeps the last path component and rewrites only a .json extension. -/
theorem to_public_file (dir name : PyStr)
    (hocc : occursB (pyOf ("file://")) (dir ++ '/' :: name) = false)
    (hn : ('/' : Char) ∉ name) :
    to_public (pyOf ("file://") ++ (dir ++ '/' :: name)) =
      pyOf ("/files/reports/") ++
        (if (pyOf (".json")).isSuffixOf name = true then
          pyReplace (pyOf (".json")) (pyOf (".csv")) name
        else name) := by
  have hone : pyOf ("file://") ≠ [] := by decide
  have hne0 : pyOf ("file://") ++ (dir ++ '/' :: name) ≠ [] :=
    List.append_ne_nil_of_left_ne_nil hone _
  have hpre : (pyOf ("file://")).isPrefixOf (pyOf ("file://") ++ (dir ++ '/' :: name)) = true :=
     List.isPrefixOf_iff_prefix.2 ( List.prefix_append _ _)
  have hfp : pyReplace (pyOf ("file://")) [] (pyOf ("file://") ++ (dir ++ '/' :: name)) =
      dir ++ '/' :: name := by
    unfold pyReplace
    rw [replaceGo_head _ _ hone _, replaceGo_no_occur _ _ _ hocc]
    simp
  rw [to_public, if_neg hne0, if_pos hpre]
  dsimp only
  rw [hfp, pySplit_last dir name hn]

/-- C8: the public-URL translator returns every reference not starting
with file:// unchanged; on a file reference file://<dir>/<name> it emits
/files/reports/<name> with the name kept verbatim unless its extension is
exactly .json, which alone is rewritten to .csv — so an arbitrary
extension is not mapped to .csv as the claim states. -/
theorem C8_to_public_translation (u dir name : PyStr) :
    (¬ ((pyOf ("file://")).isPrefixOf u = true) → to_public u = u) ∧
    (u = pyOf ("file://") ++ (dir ++ '/' :: name) →
      occursB (pyOf ("file://")) (dir ++ '/' :: name) = false →
      ('/' : Char) ∉ name →
      ((¬ ((pyOf (".json")).isSuffixOf name = true) →
          to_public u = pyOf ("/files/reports/") ++ name) ∧
        (∀ base : PyStr, name = base ++ pyOf (".json") →
          occursB (pyOf (".json")) base = false →
          to_public u = pyOf ("/files/reports/") ++ (base ++ pyOf (".csv"))))) := by
  constructor
  · intro h
    rw [to_public]
    by_cases hu : u = []
    · rw [if_pos hu]
    · rw [if_neg hu, if_neg h]
  · intro hu hocc hn
    subst hu
    have hchar := to_public_file dir name hocc hn
    constructor
    · intro hjs
      rw [hchar, if_neg hjs]
    · intro base hb hbocc
      subst hb
      have hsuf : (pyOf (".json")).isSuffixOf (base ++ pyOf (".json")) = true :=
         List.isSuffixOf_iff_suffix.2 ( List.suffix_append base _)
      rw [hchar, if_pos hsuf, replace_json_append base hbocc]

/-- Counterexample to C8 as stated: a file reference whose name ends in
.txt is translated to /files/reports/r.txt, not to the claimed .csv. -/
theorem C8_to_public_counterexample :
    to_public (pyOf ("file:///app/reports/r.txt")) = pyOf ("/files/reports/r.txt") ∧
    to_public (pyOf ("file:///app/reports/r.txt")) ≠ pyOf ("/files/reports/r.csv") :=
  ⟨by decide, by decide⟩

theorem C8_to_public_translation_witness :
    to_public (pyOf ("file:///app/reports/r.json")) = pyOf ("/files/reports/r.csv") ∧
    to_public (pyOf ("https://x/y.json")) = pyOf ("https://x/y.json") := by
  constructor
  · have h := (C8_to_public_translation (pyOf ("file:///app/reports/r.json"))
      (pyOf ("/app/reports")) (pyOf ("r.json"))).2 (by decide) (by decide) (by decide)
    exact h.2 (pyOf ("r")) (by decide) (by decide)
  · exact (C8_to_public_translation (pyOf ("https://x/y.json")) [] []).1 (by decide)
